import Mathlib

/-!
Verification development for the iptv_collector repository
(src/iptv_collector.py and src/iptv_pro.py).

The Python sources are shallowly embedded: pure functions become Lean
functions, the Python `dict` (insertion ordered, unique keys) becomes an
association list with in-place update, code that can raise becomes
`Except Err`, and the process-global clock / network / file system are
passed in explicitly as values.

Notes on fidelity, referenced from individual definitions:
* Characters: Python's `str.lower`, `\s`, `\W` and `str.strip` are
  Unicode-aware; they are modelled exactly on ASCII (all inputs appearing
  in claims are ASCII; non-ASCII characters are treated as
  non-whitespace word characters, which matches CJK text such as 央视).
* In src/iptv_collector.py lines 13-16 the subscripts of `match` were
  displaced by `:ml-citation{ref="N" ...}` artifacts; the four fields are
  read as `match[0] .. match[3]`, i.e. the regex groups in order
  (tvg-name, group-title, trailing title, url), which is the only
  reading consistent with the four capture groups and the citation
  reference numbers 1,2,3 on the last three lines.
-/

/-! ## Generic list helpers -/

/-- `prefOfB p l` : `p` is a prefix of `l` (Boolean). -/
def prefOfB : List Char → List Char → Bool
  | [], _ => true
  | _ :: _, [] => false
  | p :: ps, c :: cs => p = c && prefOfB ps cs

/-- `infOfB p l` : `p` occurs as a contiguous sublist of `l` (Boolean);
Python's `p in l` on strings. -/
def infOfB (p : List Char) : List Char → Bool
  | [] => prefOfB p []
  | c :: cs => prefOfB p (c :: cs) || infOfB p cs

/-- First `some` produced by `f` over `l`, scanning left to right. -/
def firstSome : List α → (α → Option β) → Option β
  | [], _ => none
  | a :: l, f =>
    match f a with
    | some b => some b
    | none => firstSome l f

/-! ## Python dict as an insertion-ordered association list -/

/-- Lookup in a Python dict (first — and by construction only — binding). -/
def dictGet [DecidableEq κ] : List (κ × ν) → κ → Option ν
  | [], _ => none
  | (k', v) :: rest, k => if k' = k then some v else dictGet rest k

/-- `d[k] = v` on a Python dict: replaces the binding in place if the key
exists, otherwise appends the new binding at the end. -/
def dictInsert [DecidableEq κ] : List (κ × ν) → κ → ν → List (κ × ν)
  | [], k, v => [(k, v)]
  | (k', v') :: rest, k, v =>
    if k' = k then (k, v) :: rest else (k', v') :: dictInsert rest k v

/-- `d.update(other)` on Python dicts. -/
def dictUpdate [DecidableEq κ] (d other : List (κ × ν)) : List (κ × ν) :=
  other.foldl (fun acc kv => dictInsert acc kv.1 kv.2) d

/-- Keys of the dict. -/
def dictKeys (d : List (κ × ν)) : List κ := d.map Prod.fst

/-! ## ASCII models of Python string primitives -/

/-- Python `\s` (ASCII fragment). -/
def isPySpace (c : Char) : Bool :=
  c = ' ' || c = '\t' || c = '\n' || c = '\r' || c = '\x0b' || c = '\x0c'

/-- Drop the longest all-whitespace suffix. -/
def dropTrailing (p : Char → Bool) : List Char → List Char
  | [] => []
  | c :: t =>
    match dropTrailing p t with
    | [] => if p c then [] else [c]
    | r => c :: r

/-- Python `str.strip()` (ASCII whitespace; see fidelity notes). -/
def pyStrip (l : List Char) : List Char :=
  dropTrailing isPySpace (l.dropWhile isPySpace)

/-! ## A backtracking matcher for the fixed pattern of `M3UProcessor`

src/iptv_collector.py line 9 compiles the single pattern

  `#EXTINF:-1\s+tvg-name="([^"]+)".*group-title="([^"]+)".*,(.*)\n(http.*)`

All repetitions in this pattern are greedy repetitions of single-character
classes, so the pattern is embedded as a sequence of literals and
class-repetitions; `matchSeq` reproduces leftmost greedy backtracking
(each repetition tries the longest run first and shortens on failure of
the rest of the pattern), which is exactly Python's `re` strategy on this
pattern.  Group 4 `(http.*)` is represented by the literal `http`
followed by a captured `.*`; the parser below re-attaches the `http`
prefix when building the record, so the captured value of group 4 is
unchanged. -/

/-- The character classes occurring in the pattern.  `.` does not match a
newline (the pattern is compiled without DOTALL); `[^"]` matches any
character except `"` including newlines; `\s` is whitespace. -/
inductive CC where
  | anyNoNl
  | notQuote
  | wspace
deriving DecidableEq

def ccMatch : CC → Char → Bool
  | .anyNoNl, c => c ≠ '\n'
  | .notQuote, c => c ≠ '"'
  | .wspace, c => isPySpace c

/-- Pattern elements: a literal, or a greedy repetition of a class
(`atLeastOne = true` for `+`, `false` for `*`), optionally capturing as
group `grp`. -/
inductive RE where
  | lit (l : List Char)
  | rep (c : CC) (atLeastOne : Bool) (grp : Option Nat)
deriving DecidableEq

/-- Length of the longest run of characters matching `c`. -/
def maxRun (c : CC) : List Char → Nat
  | [] => 0
  | ch :: rest => if ccMatch c ch then maxRun c rest + 1 else 0

/-- Candidate repetition counts in greedy order: `m, m-1, ..., lo`. -/
def repTries (m lo : Nat) : List Nat :=
  (List.range (m + 1 - lo)).map (fun j => m - j)

abbrev Caps := List (Nat × List Char)

/-- Backtracking matcher: match the pattern sequence at the head of the
input, returning the remaining input and the captures.  Greedy
repetitions try the longest run first. -/
def matchSeq : List RE → List Char → Caps → Option (List Char × Caps)
  | [], cs, caps => some (cs, caps)
  | .lit l :: rest, cs, caps =>
    if prefOfB l cs then matchSeq rest (cs.drop l.length) caps else none
  | .rep c one grp :: rest, cs, caps =>
    firstSome (repTries (maxRun c cs) (if one then 1 else 0)) (fun k =>
      matchSeq rest (cs.drop k)
        (match grp with
         | some g => caps ++ [(g, cs.take k)]
         | none => caps))

/-- The compiled `channel_pattern` of `M3UProcessor.__init__`. -/
def channelPattern : List RE :=
  [ .lit "#EXTINF:-1".toList,
    .rep .wspace true none,
    .lit "tvg-name=\"".toList,
    .rep .notQuote true (some 1),
    .lit "\"".toList,
    .rep .anyNoNl false none,
    .lit "group-title=\"".toList,
    .rep .notQuote true (some 2),
    .lit "\"".toList,
    .rep .anyNoNl false none,
    .lit ",".toList,
    .rep .anyNoNl false (some 3),
    .lit "\n".toList,
    .lit "http".toList,
    .rep .anyNoNl false (some 4) ]

def matchHere (cs : List Char) : Option (List Char × Caps) :=
  matchSeq channelPattern cs []

/-- `re.findall` scan: try a match at every position; on success emit the
captures and continue after the match (advancing at least one character,
as the `re` scanner does on an empty match).  The fuel starts at
`length + 1` and every step consumes at least one character, so it never
runs out before the input is exhausted. -/
def findallAux : Nat → List Char → List Caps → List Caps
  | 0, _, acc => acc.reverse
  | fuel + 1, cs, acc =>
    match matchHere cs with
    | some (rem, caps) =>
      if rem.length < cs.length then findallAux fuel rem (caps :: acc)
      else
        match cs with
        | [] => (caps :: acc).reverse
        | _ :: cs' => findallAux fuel cs' (caps :: acc)
    | none =>
      match cs with
      | [] => acc.reverse
      | _ :: cs' => findallAux fuel cs' acc

def findall (cs : List Char) : List Caps :=
  findallAux (cs.length + 1) cs []

/-- First captured value of group `n` (all groups are captured exactly
once on a successful match of `channelPattern`). -/
def capGet (caps : Caps) (n : Nat) : List Char :=
  match caps.find? (fun p => p.1 = n) with
  | some p => p.2
  | none => []

/-- All class/at-least-one pairs that the pattern captures under group
`g` (used to state what a successful match guarantees about a captured
group; `channelPattern` uses each group number exactly once). -/
def patGroups : List RE → Nat → List (CC × Bool)
  | [], _ => []
  | .lit _ :: rest, g => patGroups rest g
  | .rep c one grp :: rest, g =>
    (if grp = some g then [(c, one)] else []) ++ patGroups rest g

/-! ## `M3UProcessor` (src/iptv_collector.py lines 7-17) -/

/-- One element of the list returned by `M3UProcessor.parse`: the dict
`{'name': ..., 'category': ..., 'title': ..., 'url': ...}`. -/
structure RawChannel where
  name : String
  category : String
  title : String
  url : String
deriving DecidableEq

namespace M3UProcessor

/-- `M3UProcessor.parse`: `findall` over the content, then one dict per
match, each field stripped.  Group 4 is the literal `http` plus the
captured run (see the pattern embedding note above). -/
def parse (content : String) : List RawChannel :=
  (findall content.toList).map (fun caps =>
    { name := String.mk (pyStrip (capGet caps 1)),
      category := String.mk (pyStrip (capGet caps 2)),
      title := String.mk (pyStrip (capGet caps 3)),
      url := String.mk (pyStrip ('h' :: 't' :: 't' :: 'p' :: capGet caps 4)) })

end M3UProcessor

/-- Example playlist text of the spec's first end-to-end example, with a
tvg-name attribute added (used as a concrete witness input). -/
def c1text : String := "#EXTINF:-1 tvg-name=\"CCTV\" group-title=\"g\",CCTV-1\nhttp://a/1\n"

def c1rec : RawChannel :=
  { name := "CCTV", category := "g", title := "CCTV-1", url := "http://a/1" }

/-- The exact playlist text of the spec's first end-to-end example
(no tvg-name attribute). -/
def c2text : String := "#EXTINF:-1 tvg-id=\"cctv1\" group-title=\"\u592e\u89c6\",CCTV-1\nhttp://a/1\n"

/-- Metadata line whose tvg-name attribute value is a single space. -/
def c10text : String := "#EXTINF:-1 tvg-name=\" \" group-title=\"g\",t\nhttpx"

def c10rec : RawChannel := { name := "", category := "g", title := "t", url := "httpx" }

/-! ## `EnhancedChannel` and `IPTVSystem._add_channels` (src/iptv_pro.py) -/

/-- `EnhancedChannel` (src/iptv_pro.py lines 152-166): the fields read by
the deduplication logic plus the display metadata.  `quality` is
`raw_data.get('quality', 0)`.  The wall-clock `last_checked` stamp and
the later-attached `epg` reference play no role in deduplication and are
not part of this state. -/
structure EnhancedChannel where
  tvg_id : String
  name : String
  group : String
  url : String
  quality : Int
deriving DecidableEq

/-- `EnhancedChannel.id = hashlib.md5(raw_data['url'].encode()).hexdigest()`:
a content digest of the stream url, and nothing else.  The digest is
modelled by the url itself (an injective stand-in for the collision-free
128-bit hash; two records have equal ids iff their urls are equal). -/
def channelId (c : EnhancedChannel) : String := c.url

/-- One iteration of the loop in `IPTVSystem._add_channels`
(src/iptv_pro.py lines 209-213): insert when the identity is absent,
replace when the new record's quality is strictly greater, drop
otherwise. -/
def addChannel (store : List (String × EnhancedChannel)) (c : EnhancedChannel) :
    List (String × EnhancedChannel) :=
  match dictGet store (channelId c) with
  | none => dictInsert store (channelId c) c
  | some old =>
    if c.quality > old.quality then dictInsert store (channelId c) c else store

/-- `IPTVSystem._add_channels`: fold the per-record step over the batch;
`self.channels` is the store dict. -/
def addChannels (store : List (String × EnhancedChannel))
    (newChannels : List EnhancedChannel) : List (String × EnhancedChannel) :=
  newChannels.foldl addChannel store

/-- The two records of the spec's end-to-end example 2:
`streamUrl=http://x` with qualities 1 and 3. -/
def chX1 : EnhancedChannel := ⟨"", "x", "\u672a\u5206\u7ec4", "http://x", 1⟩

def chX3 : EnhancedChannel := ⟨"", "x", "\u672a\u5206\u7ec4", "http://x", 3⟩

/-! ## EPG data model (src/iptv_pro.py)

Python exceptions that the embedded EPG code can raise. -/

inductive Err where
  | keyError
  | attributeError
  | typeError
  | valueError
deriving DecidableEq

/-- A Python value as it occurs among channel identifiers: a string, the
None object, or a list of strings (`_match_epg` puts the list
`chan.name.split(' ')` among the aliases). -/
inductive PyVal where
  | str (s : String)
  | none
  | strList (l : List String)
deriving DecidableEq

/-- Python truthiness of such a value. -/
def pyTruthy : PyVal → Bool
  | .str s => !s.data.isEmpty
  | .none => false
  | .strList l => !l.isEmpty

/-- `.lower()` on an identifier: None and lists have no `lower`
attribute, so `_similar` raises AttributeError on them. -/
def asStr : PyVal → Except Err String
  | .str s => .ok s
  | .none => .error .attributeError
  | .strList _ => .error .attributeError

/-- An aware `datetime` as produced by
`datetime.strptime(s, '%Y%m%d%H%M%S %z')`.  The code stores
`start.isoformat()` / `end.isoformat()`, an injective rendering of this
value; the structured value is kept instead. -/
structure PyDatetime where
  year : Nat
  month : Nat
  day : Nat
  hour : Nat
  minute : Nat
  second : Nat
  tzMinutes : Int
deriving DecidableEq

def isLeapYear (y : Nat) : Bool := (y % 4 = 0 && y % 100 ≠ 0) || y % 400 = 0

def daysInMonth (y m : Nat) : Nat :=
  if m = 2 then (if isLeapYear y then 29 else 28)
  else if m = 4 || m = 6 || m = 9 || m = 11 then 30
  else 31

def digitVal (c : Char) : Option Nat :=
  if c.isDigit then some (c.toNat - 48) else Option.none

def digits2 (a b : Char) : Option Nat := do
  let x ← digitVal a
  let y ← digitVal b
  pure (10 * x + y)

/-- `datetime.strptime(s, '%Y%m%d%H%M%S %z')` on the canonical
fixed-width form of that format (4+2+2+2+2+2 digits, one space, a sign
and a 4-digit offset).  strptime also accepts a few non-canonical
variants (shorter numeric fields, `Z`, a colon or seconds in the offset);
none occur in any claim input.  `Option.none` is returned exactly where
strptime raises ValueError on a canonical-form input: malformed digits,
month/day/hour/minute out of range, a leap second (the `datetime`
constructor rejects seconds over 59), year 0, or an offset of at least
24 hours. -/
def parseTimestamp (s : String) : Option PyDatetime :=
  match s.toList with
  | [y1, y2, y3, y4, mo1, mo2, d1, d2, h1, h2, mi1, mi2, s1, s2, sp, sg, o1, o2, o3, o4] => do
    let yh ← digits2 y1 y2
    let yl ← digits2 y3 y4
    let mo ← digits2 mo1 mo2
    let dd ← digits2 d1 d2
    let hh ← digits2 h1 h2
    let mi ← digits2 mi1 mi2
    let ss ← digits2 s1 s2
    let oh ← digits2 o1 o2
    let om ← digits2 o3 o4
    let y := 100 * yh + yl
    if sp = ' ' ∧ (sg = '+' ∨ sg = '-') ∧ 1 ≤ y ∧ 1 ≤ mo ∧ mo ≤ 12 ∧
        1 ≤ dd ∧ dd ≤ daysInMonth y mo ∧ hh ≤ 23 ∧ mi ≤ 59 ∧ ss ≤ 59 ∧
        oh ≤ 23 ∧ om ≤ 59 then
      some ⟨y, mo, dd, hh, mi, ss, (if sg = '+' then 1 else -1) * (60 * (oh : Int) + om)⟩
    else Option.none
  | _ => Option.none

/-- Days from the civil epoch (proleptic Gregorian); gives
`Programme.start` its chronological meaning in claim statements. -/
def daysFromCivil (y m d : Int) : Int :=
  let y' := if m ≤ 2 then y - 1 else y
  let era := (if 0 ≤ y' then y' else y' - 399) / 400
  let yoe := y' - era * 400
  let mp := (m + 9) % 12
  let doy := (153 * mp + 2) / 5 + d - 1
  let doe := yoe * 365 + yoe / 4 - yoe / 100 + doy
  era * 146097 + doe

/-- The instant an aware datetime denotes, in seconds: naive seconds
minus the UTC offset — the order `datetime` comparison uses. -/
def instant (t : PyDatetime) : Int :=
  daysFromCivil t.year t.month t.day * 86400 +
    3600 * (t.hour : Int) + 60 * (t.minute : Int) + (t.second : Int) - 60 * t.tzMinutes

/-- One element of a `programmes` list (the dict built at lines 87-93;
`start`/`end` are stored as isoformat strings of these datetimes, `end`
is called `stop` here because `end` is reserved in Lean). -/
structure Programme where
  start : PyDatetime
  stop : PyDatetime
  title : String
  desc : String
  category : String
deriving DecidableEq

/-- `ps` is sorted by ascending start instant. -/
def startAscendingB : List Programme → Bool
  | [] => true
  | [_] => true
  | a :: b :: t => decide (instant a.start ≤ instant b.start) && startAscendingB (b :: t)

/-- One value of the `epg` dict built by `_parse_epg`: a dict that may
hold the keys `display_names`, `icons` and `programmes`.  An entry built
by a `channel` element carries the first two; an entry created on demand
by a `programme` element carries only `programmes`.  A `Option.none`
field means the key is absent. -/
structure ScheduleEntry where
  display_names : Option (List PyVal) := Option.none
  icons : Option (List (Option String)) := Option.none
  programmes : Option (List Programme) := Option.none
deriving DecidableEq

/-- The `epg` dict: keys are the `id`/`channel` attribute values, which
`Element.get` reports as None when absent. -/
abbrev EpgIndex := List (Option String × ScheduleEntry)

/-- A `channel` element: `id` attribute, texts of the `display-name`
children (`e.text` is the None object for an empty element) and `src`
attributes of the `icon` children. -/
structure XmlChannel where
  id : Option String
  displayNames : List PyVal
  icons : List (Option String)
deriving DecidableEq

/-- A `programme` element: `channel`, `start`, `stop` attributes and the
`findtext` results for title/desc/category (findtext returns the empty
string for a present element without text and for a missing element the
given default, here also effectively a string). -/
structure XmlProgramme where
  channel : Option String
  start : Option String
  stop : Option String
  title : String
  desc : String
  category : String
deriving DecidableEq

/-- A fetched provider document: its `channel` and `programme` elements
in document order, and the truthiness of the root Element
(`len(root) != 0` — `update_epg` runs `if root:` on a downloaded root
Element, so a childless root is skipped and never cached). -/
structure EpgDoc where
  hasChildren : Bool
  channels : List XmlChannel
  programmes : List XmlProgramme
deriving DecidableEq

/-! ## `EPGManager._parse_epg` (lines 71-95) -/

/-- The two strptime calls of one programme iteration (lines 84-85):
`strptime(None, ...)` raises TypeError, an unparsable string raises
ValueError. -/
def strptimeOrErr : Option String → Except Err PyDatetime
  | Option.none => .error .typeError
  | some s =>
    match parseTimestamp s with
    | some t => .ok t
    | Option.none => .error .valueError

/-- Build one programme record (start is parsed before stop, as in the
source; either failure aborts with the corresponding exception). -/
def progOfXml (p : XmlProgramme) : Except Err Programme := do
  let st ← strptimeOrErr p.start
  let en ← strptimeOrErr p.stop
  pure ⟨st, en, p.title, p.desc, p.category⟩

/-- `epg.setdefault(chan_id, {}).setdefault('programmes', []).append(r)`:
a missing key is appended at the end of the dict with a fresh entry; the
programme is appended at the end of the entry's programme list. -/
def appendProg (epg : EpgIndex) (k : Option String) (pr : Programme) : EpgIndex :=
  match dictGet epg k with
  | Option.none => epg ++ [(k, { programmes := some [pr] })]
  | some e => dictInsert epg k { e with programmes := some (e.programmes.getD [] ++ [pr]) }

/-- The channel-element loop (lines 75-80): each channel element
overwrites the entry at its id with a fresh two-key dict. -/
def chanLoop : EpgIndex → List XmlChannel → EpgIndex
  | epg, [] => epg
  | epg, ch :: rest =>
    chanLoop (dictInsert epg ch.id
      { display_names := some ch.displayNames, icons := some ch.icons }) rest

/-- The programme-element loop (lines 82-93); a timestamp failure raises
and aborts the whole parse. -/
def progLoop : EpgIndex → List XmlProgramme → Except Err EpgIndex
  | epg, [] => .ok epg
  | epg, p :: rest => do
    let pr ← progOfXml p
    progLoop (appendProg epg p.channel pr) rest

/-- `EPGManager._parse_epg`. -/
def parseEpg (doc : EpgDoc) : Except Err EpgIndex :=
  progLoop (chanLoop [] doc.channels) doc.programmes

/-- The programme records `doc` contributes to key `k`, in document
order (specification-side companion used to state C9). -/
def progsFor (doc : EpgDoc) (k : Option String) : Except Err (List Programme) :=
  (doc.programmes.filter (fun q => q.channel == k)).mapM progOfXml

/-- The `programmes` value reachable at key `k`, if any. -/
def progsOpt (epg : EpgIndex) (k : Option String) : Option (List Programme) :=
  (dictGet epg k).bind ScheduleEntry.programmes

/-! ## `EPGManager.match_channel` (lines 123-150) -/

/-- The channel dict passed to `match_channel`: presence of the keys the
code reads (`tvg-id`, `tvg-name`, `name`, `channel-name`, `aliases`).  A
present key may hold a string, the None object, or a list (as the alias
list built by `_match_epg` does). -/
structure Channel where
  tvgId : Option PyVal := Option.none
  tvgName : Option PyVal := Option.none
  name : Option PyVal := Option.none
  channelName : Option PyVal := Option.none
  aliases : Option (List PyVal) := Option.none
deriving DecidableEq

/-- `channel.get(key)` for the keys the code reads (`Option.none` =
key absent; `key in channel` is `(channelGet c key).isSome`). -/
def channelGet (c : Channel) (k : String) : Option PyVal :=
  if k = "tvg-id" then c.tvgId
  else if k = "tvg-name" then c.tvgName
  else if k = "name" then c.name
  else if k = "channel-name" then c.channelName
  else Option.none

/-- The identifier candidates built at lines 125-130:
`[get('tvg-id'), get('tvg-name'), get('name'), *get('aliases', [])]`;
an absent key contributes the None object. -/
def identifiers (c : Channel) : List PyVal :=
  [c.tvgId.getD PyVal.none, c.tvgName.getD PyVal.none, c.name.getD PyVal.none] ++
    c.aliases.getD []

/-- Python `\w` (ASCII fragment; non-ASCII characters count as word
characters, as they do for Python's Unicode `\w` on CJK text). -/
def isWordChar (c : Char) : Bool := c.isAlphanum || c = '_' || 128 ≤ c.toNat

/-- `re.sub(r'\W+', '', s.lower())` (ASCII lower-casing). -/
def pyNormalize (s : String) : List Char :=
  (s.data.map Char.toLower).filter isWordChar

/-- `EPGManager._similar` (lines 145-150): lower-case and strip non-word
characters, then substring either way or prefix either way.  Raises
AttributeError when either argument is not a string. -/
def similar (a b : PyVal) : Except Err Bool := do
  let sa ← asStr a
  let sb ← asStr b
  let na := pyNormalize sa
  let nb := pyNormalize sb
  pure (infOfB na nb || infOfB nb na || prefOfB nb na || prefOfB na nb)

/-- `any(identifier for identifier in identifiers if similar(identifier, name))`:
the generator filters by `_similar` (which may raise) and `any` tests the
truthiness of each identifier that passes, short-circuiting on the first
truthy one. -/
def anyTruthySimilar : List PyVal → PyVal → Except Err Bool
  | [], _ => .ok false
  | idc :: rest, nm => do
    let s ← similar idc nm
    if s && pyTruthy idc then pure true else anyTruthySimilar rest nm

/-- The inner `for name in epg['display_names']` loop. -/
def nameLoop (ids : List PyVal) : List PyVal → Except Err Bool
  | [] => .ok false
  | nm :: rest => do
    let b ← anyTruthySimilar ids nm
    if b then pure true else nameLoop ids rest

/-- The fuzzy loop (lines 138-142): iterate the index in insertion order;
`epg['display_names']` raises KeyError on an entry created on demand by a
programme element. -/
def fuzzyTier (ids : List PyVal) : EpgIndex → Except Err (Option ScheduleEntry)
  | [] => .ok Option.none
  | (_, e) :: rest =>
    match e.display_names with
    | Option.none => .error .keyError
    | some names => do
      let b ← nameLoop ids names
      if b then pure (some e) else fuzzyTier ids rest

/-- `channel[id_type] in self.epg_data` followed by indexing: a list
value is unhashable (TypeError); a string or None value is looked up
among the keys. -/
def pyValLookup (v : PyVal) (epg : EpgIndex) : Except Err (Option ScheduleEntry) :=
  match v with
  | .str s => .ok (dictGet epg (some s))
  | .none => .ok (dictGet epg Option.none)
  | .strList _ => .error .typeError

/-- `CONFIG["matching"]["priority"]`. -/
def CONFIG_matching_priority : List String := ["tvg-id", "tvg-name", "channel-name"]

/-- The exact-match loop (lines 133-135). -/
def exactTier (c : Channel) (epg : EpgIndex) : List String → Except Err (Option ScheduleEntry)
  | [] => .ok Option.none
  | t :: rest =>
    match channelGet c t with
    | Option.none => exactTier c epg rest
    | some v => do
      match ← pyValLookup v epg with
      | some e => pure (some e)
      | Option.none => exactTier c epg rest

/-- `EPGManager.match_channel` (lines 123-143); the `fuzzy_match` flag is
passed explicitly (the code reads `CONFIG["matching"]["fuzzy_match"]`,
which this source sets to True), the priority list is the configured
one. -/
def matchChannel (fuzzy : Bool) (c : Channel) (epg : EpgIndex) :
    Except Err (Option ScheduleEntry) := do
  match ← exactTier c epg CONFIG_matching_priority with
  | some e => pure (some e)
  | Option.none =>
    if fuzzy then
      match ← fuzzyTier (identifiers c) epg with
      | some e => pure (some e)
      | Option.none => pure Option.none
    else pure Option.none

/-! ## `EPGManager.update_epg` (lines 97-121) -/

/-- The top-level keys of the CONFIG literal (lines 21-51).  The EPG
settings (`providers`, `cache_ttl`) sit at `CONFIG["sources"]["epg"]`;
there is no top-level "epg" key. -/
def CONFIG_top_keys : List String := ["sources", "matching", "output"]

/-- A top-level subscript `CONFIG[k]`: KeyError when the key is absent.
Only presence is modelled here; the reads routed through this function
are the `CONFIG["epg"]` subscripts of lines 99, 103 and 106, all of
which miss. -/
def configTop (k : String) : Except Err Unit :=
  if k ∈ CONFIG_top_keys then .ok () else .error Err.keyError

/-- One provider as the provider loop of `update_epg` would see it
during one call: the current cache file for the provider's url
(`Option.none` when the file does not exist; otherwise its mtime and
stored document), and what a download would return now (`_download_epg`
returns None on any network or parse error of the fetched bytes). -/
structure Provider where
  cache : Option (Int × EpgDoc)
  download : Option EpgDoc
deriving DecidableEq

/-- The manager state touched by `update_epg`: `self.epg_data` and
`self.last_update`. -/
structure EpgState where
  epgData : EpgIndex
  lastUpdate : Int
deriving DecidableEq

/-- Outcome of one provider iteration. -/
inductive StepRes where
  | err (e : Err)
  | skip (cache : Option (Int × EpgDoc)) (fetched : Bool)
  | parsed (pe : EpgIndex) (cache : Option (Int × EpgDoc)) (fetched : Bool)

/-- The stale-or-absent-cache path of one provider iteration: download;
on None skip; on a root Element, write the cache file and parse only when
the root is truthy (has child elements). -/
def providerDownload (now : Int) (p : Provider) : StepRes :=
  match p.download with
  | Option.none => .skip p.cache true
  | some doc =>
    if doc.hasChildren then
      match parseEpg doc with
      | .error e => .err e
      | .ok pe => .parsed pe (some (now, doc)) true
    else .skip p.cache true

/-- One provider iteration (lines 104-118) of the loop — dead code in
the real program, see `updateEpg`: a fresh cache file is parsed with
`ET.parse` (an ElementTree, always truthy); otherwise download.  The
freshness check of line 106 reads `CONFIG["epg"]["cache_ttl"]` again, a
subscript that would itself raise KeyError('epg') were the loop ever
reached; it is rendered here by the same `ttl` parameter as the gate's
read. -/
def providerStep (now ttl : Int) (p : Provider) : StepRes :=
  match p.cache with
  | some (mtime, doc) =>
    if now - mtime < ttl then
      match parseEpg doc with
      | .error e => .err e
      | .ok pe => .parsed pe (some (mtime, doc)) false
    else providerDownload now p
  | Option.none => providerDownload now p

/-- The provider loop of `update_epg` (lines 102-118) — dead code in the
real program, see `updateEpg` — also reporting the resulting cache
states and, per provider, whether a download was attempted.  The list it
iterates is the `CONFIG["epg"]["providers"]` read of line 103, passed as
the `provs` parameter. -/
def updateLoop (now ttl : Int) (strat : String) :
    List Provider → EpgIndex →
      Except Err (EpgIndex × List (Option (Int × EpgDoc)) × List Bool)
  | [], merged => .ok (merged, [], [])
  | p :: rest, merged =>
    match providerStep now ttl p with
    | .err e => .error e
    | .skip c f =>
      (updateLoop now ttl strat rest merged).map (fun r => (r.1, c :: r.2.1, f :: r.2.2))
    | .parsed pe c f =>
      (updateLoop now ttl strat rest
        (if strat = "merge" then dictUpdate merged pe else pe)).map
          (fun r => (r.1, c :: r.2.1, f :: r.2.2))

/-- The body of `update_epg` from the gate comparison onward (lines
99-121): the process-wide `last_update` gate, the provider loop, and the
final state update.  Dead code in the real program: the `CONFIG["epg"]`
subscript of line 99 raises before any of it runs (see `updateEpg`).  It
is parameterized by the ttl and provider list that the failing
`CONFIG["epg"]` reads of lines 99, 103 and 106 were meant to supply
(the literal holds `cache_ttl = 86400` and the provider urls at
`CONFIG["sources"]["epg"]`) and by the strategy, whose own read
`CONFIG["output"]["epg_strategy"]` (line 115) does exist and is
`"merge"`.  `now` stands for the `time.time()` reads of one
invocation. -/
def updateEpgBody (now ttl : Int) (strat : String) (provs : List Provider) (st : EpgState) :
    Except Err (EpgState × List (Option (Int × EpgDoc)) × List Bool) :=
  if now - st.lastUpdate < ttl then
    .ok (st, provs.map Provider.cache, provs.map (fun _ => false))
  else
    match updateLoop now ttl strat provs [] with
    | .error e => .error e
    | .ok (merged, caches, flags) => .ok (⟨merged, now⟩, caches, flags)

/-- `EPGManager.update_epg` (lines 97-121).  Its first expression — the
gate comparison of line 99 — subscripts `CONFIG["epg"]`; the CONFIG
literal has no top-level "epg" key (the EPG block is nested under
"sources"), so every call raises KeyError('epg') before the comparison,
the provider loop, or any state change, and `updateEpgBody` is dead
code.  The function never returns normally. -/
def updateEpg (now : Int) (provs : List Provider) (st : EpgState) :
    Except Err (EpgState × List (Option (Int × EpgDoc)) × List Bool) := do
  let _ ← configTop "epg"
  updateEpgBody now 86400 "merge" provs st

deriving instance DecidableEq for Except

/-! ## Decidable shape predicates (used as hypotheses) -/

/-- The value is a Python string. -/
def isStrB : PyVal → Bool
  | .str _ => true
  | _ => false

/-- The value (of a present key) is hashable, i.e. not a list. -/
def hashableB : Option PyVal → Bool
  | some (.strList _) => false
  | _ => true

/-- The entry has a `display_names` key holding strings only (the shape
`match_channel`'s fuzzy tier survives). -/
def entryFuzzySafe (e : ScheduleEntry) : Bool :=
  match e.display_names with
  | some names => names.all isStrB
  | Option.none => false

/-! ## Concrete example inputs for the EPG claims -/

/-- An index entry created on demand by a programme element: it has no
`display_names` key. -/
def onDemandEntry : ScheduleEntry := { programmes := some [] }

def c5chan : Channel := { tvgId := some (.str "x") }

def c5epg : EpgIndex := [(some "c", onDemandEntry)]

def c5goodChan : Channel :=
  { tvgId := some (.str "x"), tvgName := some (.str "y"),
    name := some (.str "z"), aliases := some [] }

def c6chan : Channel := { tvgId := some (.str "c") }

def c6entry : ScheduleEntry := { display_names := some [.str "Chan"] }

def c6epg : EpgIndex := [(some "c", c6entry)]

/-- A provider document with one channel and two programmes, the second
of which has an unparsable start timestamp. -/
def d4doc : EpgDoc :=
  { hasChildren := true,
    channels := [⟨some "c1", [.str "Chan"], []⟩],
    programmes :=
      [⟨some "c1", some "20240101120000 +0000", some "20240101130000 +0000", "A", "", ""⟩,
       ⟨some "c1", some "bad", some "20240101140000 +0000", "B", "", ""⟩] }

/-- A provider document whose two programmes appear in descending start
order. -/
def d9doc : EpgDoc :=
  { hasChildren := true,
    channels := [⟨some "c", [.str "C"], []⟩],
    programmes :=
      [⟨some "c", some "20240101120000 +0000", some "20240101130000 +0000", "B", "", ""⟩,
       ⟨some "c", some "20240101110000 +0000", some "20240101115500 +0000", "A", "", ""⟩] }

def p9B : Programme :=
  ⟨⟨2024, 1, 1, 12, 0, 0, 0⟩, ⟨2024, 1, 1, 13, 0, 0, 0⟩, "B", "", ""⟩

def p9A : Programme :=
  ⟨⟨2024, 1, 1, 11, 0, 0, 0⟩, ⟨2024, 1, 1, 11, 55, 0, 0⟩, "A", "", ""⟩

def e9 : ScheduleEntry :=
  { display_names := some [.str "C"], icons := some [], programmes := some [p9B, p9A] }

def idx9 : EpgIndex := [(some "c", e9)]

/-- Two one-channel provider documents sharing the id `a`. -/
def d8a : EpgDoc :=
  { hasChildren := true,
    channels := [⟨some "a", [.str "A1"], []⟩, ⟨some "b", [.str "B1"], []⟩],
    programmes := [] }

def d8b : EpgDoc :=
  { hasChildren := true,
    channels := [⟨some "a", [.str "A2"], []⟩],
    programmes := [] }

def pe8a : EpgIndex :=
  [(some "a", { display_names := some [.str "A1"], icons := some [] }),
   (some "b", { display_names := some [.str "B1"], icons := some [] })]

def pe8b : EpgIndex :=
  [(some "a", { display_names := some [.str "A2"], icons := some [] })]

-- THEOREMS-SECTION (all definitions go above this line)

/-! ## Helper lemmas on the Boolean string predicates -/

theorem prefOfB_append (p t : List Char) : prefOfB p (p ++ t) = true := by
  induction p with
  | nil => rfl
  | cons c cs ih => simp [prefOfB, ih]

theorem infOfB_of_pref {p l : List Char} (h : prefOfB p l = true) : infOfB p l = true := by
  cases l with
  | nil => simpa [infOfB] using h
  | cons c cs => simp [infOfB, h]

theorem infOfB_tail {p cs' : List Char} (c : Char) (h : infOfB p cs' = true) :
    infOfB p (c :: cs') = true := by
  simp [infOfB, h]

theorem infOfB_drop {p : List Char} :
    ∀ (cs : List Char) (n : Nat), infOfB p (cs.drop n) = true → infOfB p cs = true := by
  intro cs
  induction cs with
  | nil => intro n h; simpa using h
  | cons c cs' ih =>
    intro n h
    cases n with
    | zero => simpa using h
    | succ m => exact infOfB_tail c (ih m (by simpa using h))

theorem firstSome_eq_some {α β : Type} {f : α → Option β} {b : β} :
    ∀ {l : List α}, firstSome l f = some b → ∃ a, a ∈ l ∧ f a = some b := by
  intro l
  induction l with
  | nil => intro h; simp [firstSome] at h
  | cons a l ih =>
    intro h
    simp only [firstSome] at h
    cases hfa : f a with
    | some v =>
      rw [hfa] at h
      exact ⟨a, List.mem_cons_self a l, hfa.trans h⟩
    | none =>
      rw [hfa] at h
      obtain ⟨x, hx, hfx⟩ := ih h
      exact ⟨x, List.mem_cons_of_mem _ hx, hfx⟩

theorem maxRun_le_length (c : CC) : ∀ (cs : List Char), maxRun c cs ≤ cs.length := by
  intro cs
  induction cs with
  | nil => simp [maxRun]
  | cons ch rest ih =>
    simp only [maxRun, List.length_cons]
    split
    · omega
    · omega

theorem repTries_mem {k m lo : Nat} (h : k ∈ repTries m lo) : lo ≤ k ∧ k ≤ m := by
  simp only [repTries, List.mem_map, List.mem_range] at h
  obtain ⟨j, hj, rfl⟩ := h
  omega

theorem take_all_ccMatch (c : CC) :
    ∀ (cs : List Char) (k : Nat), k ≤ maxRun c cs →
      ∀ ch ∈ cs.take k, ccMatch c ch = true := by
  intro cs
  induction cs with
  | nil => intro k _ ch hch; simp at hch
  | cons a rest ih =>
    intro k hk ch hch
    by_cases hm : ccMatch c a = true
    · rw [maxRun, if_pos hm] at hk
      cases k with
      | zero => simp at hch
      | succ k' =>
        simp only [List.take_succ_cons, List.mem_cons] at hch
        rcases hch with rfl | hch
        · exact hm
        · exact ih k' (by omega) ch hch
    · rw [maxRun, if_neg hm] at hk
      have : k = 0 := by omega
      subst this
      simp at hch

/-! ## What a successful match of the pattern guarantees -/

theorem matchSeq_lit_occurs {l : List Char} :
    ∀ (pat : List RE) (cs : List Char) (caps : Caps) (r : List Char × Caps),
      matchSeq pat cs caps = some r → RE.lit l ∈ pat → infOfB l cs = true := by
  intro pat
  induction pat with
  | nil => intro cs caps r _ hmem; exact absurd hmem (List.not_mem_nil _)
  | cons e rest ih =>
    intro cs caps r hm hmem
    cases e with
    | lit l' =>
      simp only [matchSeq] at hm
      split at hm
      · rcases List.mem_cons.mp hmem with heq | hmem'
        · injection heq with h'
          subst h'
          exact infOfB_of_pref (by assumption)
        · exact infOfB_drop _ _ (ih _ _ _ hm hmem')
      · exact absurd hm (by simp)
    | rep c one grp =>
      simp only [matchSeq] at hm
      obtain ⟨k, _, hk⟩ := firstSome_eq_some hm
      have hmem' : RE.lit l ∈ rest := by
        rcases List.mem_cons.mp hmem with heq | h'
        · cases heq
        · exact h'
      exact infOfB_drop _ _ (ih _ _ _ hk hmem')

theorem matchSeq_caps :
    ∀ (pat : List RE) (cs : List Char) (caps : Caps) (rem : List Char) (caps' : Caps),
      matchSeq pat cs caps = some (rem, caps') →
      ∃ extra, caps' = caps ++ extra ∧
        (∀ e ∈ extra, ∃ cc one, (cc, one) ∈ patGroups pat e.1 ∧
          (one = true → e.2 ≠ []) ∧ ∀ ch ∈ e.2, ccMatch cc ch = true) ∧
        (∀ g, patGroups pat g ≠ [] → ∃ v, (g, v) ∈ extra) := by
  intro pat
  induction pat with
  | nil =>
    intro cs caps rem caps' hm
    simp only [matchSeq, Option.some.injEq, Prod.mk.injEq] at hm
    refine ⟨[], by simp [hm.2.symm], by simp, ?_⟩
    intro g hg
    exact absurd rfl hg
  | cons e rest ih =>
    intro cs caps rem caps' hm
    cases e with
    | lit l' =>
      simp only [matchSeq] at hm
      split at hm
      · obtain ⟨extra, h1, h2, h3⟩ := ih _ _ _ _ hm
        exact ⟨extra, h1, by simpa [patGroups] using h2, by simpa [patGroups] using h3⟩
      · exact absurd hm (by simp)
    | rep c one grp =>
      simp only [matchSeq] at hm
      obtain ⟨k, hkmem, hk⟩ := firstSome_eq_some hm
      have hbounds := repTries_mem hkmem
      cases grp with
      | none =>
        obtain ⟨extra, h1, h2, h3⟩ := ih _ _ _ _ hk
        refine ⟨extra, h1, ?_, ?_⟩
        · intro x hx
          obtain ⟨cc, one', hmem, hne, hch⟩ := h2 x hx
          exact ⟨cc, one', by simpa [patGroups] using hmem, hne, hch⟩
        · intro g hg
          apply h3
          simpa [patGroups] using hg
      | some g0 =>
        obtain ⟨extra, h1, h2, h3⟩ := ih _ _ _ _ hk
        refine ⟨(g0, cs.take k) :: extra, by simpa using h1, ?_, ?_⟩
        · intro x hx
          rcases List.mem_cons.mp hx with rfl | hx'
          · refine ⟨c, one, ?_, ?_, ?_⟩
            · simp [patGroups]
            · intro hone
              subst hone
              have hk1 : 1 ≤ k := by simpa using hbounds.1
              have hcs : cs ≠ [] := by
                intro hnil
                subst hnil
                simp [maxRun] at hbounds
                omega
              simp only [ne_eq, List.take_eq_nil_iff]
              push_neg
              exact ⟨by omega, hcs⟩
            · exact take_all_ccMatch c cs k hbounds.2
          · obtain ⟨cc, one', hmem, hne, hch⟩ := h2 x hx'
            refine ⟨cc, one', ?_, hne, hch⟩
            simp only [patGroups]
            exact List.mem_append_right _ hmem
        · intro g hg
          by_cases hgg : g = g0
          · subst hgg
            exact ⟨cs.take k, List.mem_cons_self _ _⟩
          · have : patGroups rest g ≠ [] := by
              simp only [patGroups] at hg
              simpa [Option.some.injEq, Ne.symm hgg] using hg
            obtain ⟨v, hv⟩ := h3 g this
            exact ⟨v, List.mem_cons_of_mem _ hv⟩

theorem findallAux_mem :
    ∀ (fuel : Nat) (cs : List Char) (acc : List Caps) (caps : Caps),
      caps ∈ findallAux fuel cs acc →
      caps ∈ acc ∨ ∃ cs₁ rem, matchSeq channelPattern cs₁ [] = some (rem, caps) := by
  intro fuel
  induction fuel with
  | zero =>
    intro cs acc caps h
    exact Or.inl (List.mem_reverse.mp h)
  | succ n ih =>
    intro cs acc caps h
    simp only [findallAux] at h
    cases hmc : matchHere cs with
    | some r =>
      obtain ⟨rem, caps₀⟩ := r
      simp only [hmc] at h
      have hsrc : matchSeq channelPattern cs [] = some (rem, caps₀) := hmc
      by_cases hlen : rem.length < cs.length
      · rw [if_pos hlen] at h
        rcases ih _ _ _ h with hacc | hex
        · rcases List.mem_cons.mp hacc with rfl | hacc'
          · exact Or.inr ⟨cs, rem, hsrc⟩
          · exact Or.inl hacc'
        · exact Or.inr hex
      · rw [if_neg hlen] at h
        cases cs with
        | nil =>
          rcases List.mem_cons.mp (List.mem_reverse.mp h) with rfl | hacc'
          · exact Or.inr ⟨[], rem, hsrc⟩
          · exact Or.inl hacc'
        | cons c cs' =>
          rcases ih _ _ _ h with hacc | hex
          · rcases List.mem_cons.mp hacc with rfl | hacc'
            · exact Or.inr ⟨c :: cs', rem, hsrc⟩
            · exact Or.inl hacc'
          · exact Or.inr hex
    | none =>
      simp only [hmc] at h
      cases cs with
      | nil => exact Or.inl (List.mem_reverse.mp h)
      | cons c cs' => exact ih _ _ _ h

theorem findall_mem {cs₀ : List Char} {caps : Caps} (h : caps ∈ findall cs₀) :
    ∃ cs₁ rem, matchSeq channelPattern cs₁ [] = some (rem, caps) := by
  rcases findallAux_mem _ _ _ _ h with hacc | hex
  · exact absurd hacc (List.not_mem_nil _)
  · exact hex

/-- Any group-`n` lookup in the captures of a successful match of
`channelPattern` with `patGroups channelPattern n = [(cc, one)]` yields a
run of characters of class `cc`, non-empty when `one = true`. -/
theorem capGet_spec {cs rem : List Char} {caps : Caps} {n : Nat} {cc : CC} {one : Bool}
    (hm : matchSeq channelPattern cs [] = some (rem, caps))
    (hpat : patGroups channelPattern n = [(cc, one)]) :
    (one = true → capGet caps n ≠ []) ∧ ∀ ch ∈ capGet caps n, ccMatch cc ch = true := by
  obtain ⟨extra, h1, h2, h3⟩ := matchSeq_caps _ _ _ _ _ hm
  simp only [List.nil_append] at h1
  subst h1
  obtain ⟨v, hv⟩ := h3 n (by simp [hpat])
  have hfind : (caps.find? (fun p => p.1 = n)).isSome = true := by
    rw [List.find?_isSome]
    exact ⟨(n, v), hv, by simp⟩
  obtain ⟨p, hp⟩ := Option.isSome_iff_exists.mp hfind
  have hp1 : p.1 = n := by simpa using List.find?_some hp
  have hpmem : p ∈ caps := List.mem_of_find?_eq_some hp
  obtain ⟨cc', one', hmem', hne', hch'⟩ := h2 p hpmem
  rw [hp1, hpat] at hmem'
  simp only [List.mem_singleton, Prod.mk.injEq] at hmem'
  obtain ⟨rfl, rfl⟩ := hmem'
  have hcap : capGet caps n = p.2 := by
    simp only [capGet, hp]
  rw [hcap]
  exact ⟨hne', hch'⟩

/-! ## `str.strip` lemmas -/

theorem dropTrailing_append {p : Char → Bool} :
    ∀ (l₁ l₂ : List Char), (∀ c ∈ l₁, p c = false) →
      dropTrailing p (l₁ ++ l₂) = l₁ ++ dropTrailing p l₂ := by
  intro l₁
  induction l₁ with
  | nil => intro l₂ _; rfl
  | cons c t ih =>
    intro l₂ h
    have hc : p c = false := h c (List.mem_cons_self _ _)
    have ht : ∀ x ∈ t, p x = false := fun x hx => h x (List.mem_cons_of_mem _ hx)
    have hin : dropTrailing p (t ++ l₂) = t ++ dropTrailing p l₂ := ih l₂ ht
    show dropTrailing p (c :: (t ++ l₂)) = c :: (t ++ dropTrailing p l₂)
    rw [dropTrailing, hin]
    cases htl : t ++ dropTrailing p l₂ with
    | nil =>
      obtain ⟨rfl, h2⟩ := List.append_eq_nil.mp htl
      simp [hc, h2]
    | cons a r =>
      simp

theorem dropWhile_http (v : List Char) :
    List.dropWhile isPySpace ('h' :: 't' :: 't' :: 'p' :: v) =
      'h' :: 't' :: 't' :: 'p' :: v := by
  rw [List.dropWhile_cons]
  simp [isPySpace]

theorem pyStrip_http (v : List Char) :
    pyStrip ('h' :: 't' :: 't' :: 'p' :: v) =
      'h' :: 't' :: 't' :: 'p' :: dropTrailing isPySpace v := by
  have h4 : ('h' :: 't' :: 't' :: 'p' :: v) = ['h', 't', 't', 'p'] ++ v := rfl
  rw [pyStrip, dropWhile_http, h4, dropTrailing_append]
  · rfl
  · decide

theorem string_mk_ne_empty {l : List Char} (h : l ≠ []) : String.mk l ≠ "" := by
  intro hcon
  exact h (congrArg String.data hcon)

/-! ## Claims C1, C2, C10 about `M3UProcessor.parse` -/

/-- C1: every record returned by `M3UProcessor.parse` has a non-empty
`url`; `parse` itself is a total Lean function (the embedded code cannot
raise: it is a `findall` and four `strip`s over the capture groups). -/
theorem parse_url_nonempty (content : String) (r : RawChannel)
    (hr : r ∈ M3UProcessor.parse content) : r.url ≠ "" := by
  simp only [M3UProcessor.parse, List.mem_map] at hr
  obtain ⟨caps, _, rfl⟩ := hr
  simp only
  rw [pyStrip_http]
  exact string_mk_ne_empty (by simp)

/-- Witness for C1 at the spec's first end-to-end example shape. -/
theorem parse_url_nonempty_witness :
    c1rec ∈ M3UProcessor.parse c1text ∧ c1rec.url ≠ "" :=
  ⟨by decide, parse_url_nonempty c1text c1rec (by decide)⟩

/-! ## Claim C2: a metadata line without tvg-name yields no record -/

theorem findallAux_no_tvg :
    ∀ (fuel : Nat) (cs : List Char) (acc : List Caps),
      infOfB "tvg-name=\"".toList cs = false → findallAux fuel cs acc = acc.reverse := by
  intro fuel
  induction fuel with
  | zero => intro cs acc _; rfl
  | succ n ih =>
    intro cs acc h
    have hm : matchHere cs = none := by
      cases hmc : matchHere cs with
      | none => rfl
      | some r =>
        have ht : infOfB "tvg-name=\"".toList cs = true :=
          matchSeq_lit_occurs channelPattern cs [] r hmc (by decide)
        rw [h] at ht
        exact absurd ht (by simp)
    simp only [findallAux, hm]
    cases cs with
    | nil => rfl
    | cons c cs' =>
      apply ih
      have h' : (prefOfB "tvg-name=\"".toList (c :: cs') ||
          infOfB "tvg-name=\"".toList cs') = false := h
      exact (Bool.or_eq_false_iff.mp h').2

/-- C2 (amended): the pattern requires a `tvg-name="` attribute, so any
input in which that substring does not occur parses to the empty list;
in particular the spec's example line (which has only `tvg-id` and
`group-title`) produces no record at all. -/
theorem parse_nil_of_no_tvg_name (content : String)
    (h : infOfB "tvg-name=\"".toList content.toList = false) :
    M3UProcessor.parse content = [] := by
  unfold M3UProcessor.parse findall
  rw [String.toList] at h
  rw [findallAux_no_tvg _ _ _ h]
  rfl

/-- C2 (counterexample): the spec's end-to-end example 1 text parses to
the empty sequence, not to one record with `tvgId = cctv1`. -/
theorem parse_c2_example_empty : M3UProcessor.parse c2text = [] := by decide

/-- Witness for the amended C2 theorem at the example text. -/
theorem parse_nil_of_no_tvg_name_witness :
    infOfB "tvg-name=\"".toList c2text.toList = false ∧ M3UProcessor.parse c2text = [] :=
  ⟨by decide, parse_nil_of_no_tvg_name c2text (by decide)⟩

/-! ## Claim C10: shape of every parsed record -/

/-- C10 (amended): every record returned by `parse` has a `url` beginning
with the literal characters `http`, and its `name` and `category` are the
whitespace-stripped contents of quoted attribute values that contain at
least one (non-quote) character — hence they are non-empty unless the
attribute value consists of whitespace only.  (Locator lines not starting
with `http` and metadata lines lacking `tvg-name` or `group-title` never
produce a record, since the single pattern requires all of them.) -/
theorem parse_records_shape (content : String) (r : RawChannel)
    (hr : r ∈ M3UProcessor.parse content) :
    prefOfB "http".toList r.url.data = true ∧
    ∃ v1 v2, v1 ≠ [] ∧ v2 ≠ [] ∧ (∀ ch ∈ v1, ch ≠ '"') ∧ (∀ ch ∈ v2, ch ≠ '"') ∧
      r.name = String.mk (pyStrip v1) ∧ r.category = String.mk (pyStrip v2) := by
  simp only [M3UProcessor.parse, List.mem_map] at hr
  obtain ⟨caps, hcaps, rfl⟩ := hr
  obtain ⟨cs₁, rem, hm⟩ := findall_mem hcaps
  constructor
  · show prefOfB "http".toList
      (String.mk (pyStrip ('h' :: 't' :: 't' :: 'p' :: capGet caps 4))).data = true
    show prefOfB "http".toList (pyStrip ('h' :: 't' :: 't' :: 'p' :: capGet caps 4)) = true
    rw [pyStrip_http]
    exact prefOfB_append "http".toList _
  · have h1 := @capGet_spec cs₁ rem caps 1 CC.notQuote true hm (by decide)
    have h2 := @capGet_spec cs₁ rem caps 2 CC.notQuote true hm (by decide)
    refine ⟨capGet caps 1, capGet caps 2, h1.1 rfl, h2.1 rfl, ?_, ?_, rfl, rfl⟩
    · intro ch hch
      have := h1.2 ch hch
      simpa [ccMatch] using this
    · intro ch hch
      have := h2.2 ch hch
      simpa [ccMatch] using this

/-- C10 (counterexample): a whitespace-only `tvg-name` value strips to an
empty `name`, so parsed records do not always have a non-empty name. -/
theorem parse_whitespace_name_empty :
    M3UProcessor.parse c10text = [c10rec] := by decide

/-- Witness for the amended C10 theorem at a concrete record. -/
theorem parse_records_shape_witness :
    prefOfB "http".toList c10rec.url.data = true ∧
    ∃ v1 v2, v1 ≠ [] ∧ v2 ≠ [] ∧ (∀ ch ∈ v1, ch ≠ '"') ∧ (∀ ch ∈ v2, ch ≠ '"') ∧
      c10rec.name = String.mk (pyStrip v1) ∧ c10rec.category = String.mk (pyStrip v2) :=
  parse_records_shape c10text c10rec (by decide)

/-! ## Dict lemmas -/

theorem dictGet_insert_self [DecidableEq κ] :
    ∀ (d : List (κ × ν)) (k : κ) (v : ν), dictGet (dictInsert d k v) k = some v := by
  intro d
  induction d with
  | nil => intro k v; simp [dictInsert, dictGet]
  | cons kv rest ih =>
    intro k v
    obtain ⟨k', v'⟩ := kv
    by_cases h : k' = k
    · subst h
      simp [dictInsert, dictGet]
    · simp only [dictInsert, if_neg h, dictGet]
      exact ih k v

theorem dictGet_insert_ne [DecidableEq κ] :
    ∀ (d : List (κ × ν)) (k k' : κ) (v : ν), k ≠ k' →
      dictGet (dictInsert d k v) k' = dictGet d k' := by
  intro d
  induction d with
  | nil => intro k k' v h; simp [dictInsert, dictGet, h]
  | cons kv rest ih =>
    intro k k' v h
    obtain ⟨k₀, v₀⟩ := kv
    by_cases h0 : k₀ = k
    · subst h0
      simp [dictInsert, dictGet, h]
    · simp only [dictInsert, if_neg h0, dictGet]
      by_cases h1 : k₀ = k'
      · simp [h1]
      · rw [if_neg h1, if_neg h1]
        exact ih k k' v h

/-! ## Claim C3: the deduplication invariant of `_add_channels` -/

theorem addChannels_invariant (k : String) :
    ∀ (cs : List EnhancedChannel),
      ((dictGet (addChannels [] cs) k).isSome ↔ ∃ c ∈ cs, channelId c = k) ∧
      (∀ c, dictGet (addChannels [] cs) k = some c →
        channelId c = k ∧
        (∀ d ∈ cs, channelId d = k → d.quality ≤ c.quality) ∧
        ∃ l1 l2, cs = l1 ++ c :: l2 ∧
          ∀ d ∈ l1, channelId d = k → d.quality < c.quality) := by
  intro cs
  induction cs using List.reverseRecOn with
  | nil => simp [addChannels, dictGet]
  | append_singleton l d ih =>
    have hstep : addChannels [] (l ++ [d]) = addChannel (addChannels [] l) d := by
      simp [addChannels, List.foldl_append]
    rw [hstep]
    by_cases hkd : channelId d = k
    · -- the new record carries the observed identity
      subst hkd
      cases hget : dictGet (addChannels [] l) (channelId d) with
      | none =>
        have hnol : ¬ ∃ c ∈ l, channelId c = channelId d := by
          intro hex
          have := ih.1.mpr hex
          rw [hget] at this
          simp at this
        simp only [addChannel, hget]
        rw [dictGet_insert_self]
        refine ⟨⟨fun _ => ⟨d, by simp, rfl⟩, fun _ => by simp⟩, ?_⟩
        intro c hc
        obtain rfl : d = c := by simpa using hc
        refine ⟨rfl, ?_, l, [], by simp, ?_⟩
        · intro e he hek
          rcases List.mem_append.mp he with hel | hed
          · exact absurd ⟨e, hel, hek⟩ hnol
          · obtain rfl : e = d := by simpa using hed
            exact le_refl _
        · intro e hel hek
          exact absurd ⟨e, hel, hek⟩ hnol
      | some old =>
        have hold := ih.2 old hget
        by_cases hq : d.quality > old.quality
        · simp only [addChannel, hget, if_pos hq]
          rw [dictGet_insert_self]
          refine ⟨⟨fun _ => ⟨d, by simp, rfl⟩, fun _ => by simp⟩, ?_⟩
          intro c hc
          obtain rfl : d = c := by simpa using hc
          refine ⟨rfl, ?_, l, [], by simp, ?_⟩
          · intro e he hek
            rcases List.mem_append.mp he with hel | hed
            · exact le_of_lt (lt_of_le_of_lt (hold.2.1 e hel hek) hq)
            · obtain rfl : e = d := by simpa using hed
              exact le_refl _
          · intro e hel hek
            exact lt_of_le_of_lt (hold.2.1 e hel hek) hq
        · simp only [addChannel, hget, if_neg hq]
          refine ⟨⟨fun _ => ⟨d, by simp, rfl⟩, fun _ => by simp⟩, ?_⟩
          intro c hc
          obtain rfl : old = c := by simpa using hc
          obtain ⟨l1, l2, hsplit, hl1⟩ := hold.2.2
          refine ⟨hold.1, ?_, l1, l2 ++ [d], by simp [hsplit], hl1⟩
          intro e he hek
          rcases List.mem_append.mp he with hel | hed
          · exact hold.2.1 e hel hek
          · obtain rfl : e = d := by simpa using hed
            omega
    · -- identity k is untouched by the new record
      have huntouched : dictGet (addChannel (addChannels [] l) d) k =
          dictGet (addChannels [] l) k := by
        cases hget : dictGet (addChannels [] l) (channelId d) with
        | none =>
          simp only [addChannel, hget]
          exact dictGet_insert_ne _ _ _ _ hkd
        | some old =>
          by_cases hq : d.quality > old.quality
          · simp only [addChannel, hget, if_pos hq]
            exact dictGet_insert_ne _ _ _ _ hkd
          · simp only [addChannel, hget, if_neg hq]
      rw [huntouched]
      refine ⟨?_, ?_⟩
      · rw [ih.1]
        constructor
        · rintro ⟨c, hcl, hck⟩
          exact ⟨c, List.mem_append_left _ hcl, hck⟩
        · rintro ⟨c, hc, hck⟩
          rcases List.mem_append.mp hc with hcl | hcd
          · exact ⟨c, hcl, hck⟩
          · obtain rfl : c = d := by simpa using hcd
            exact absurd hck hkd
      · intro c hc
        have hcl := ih.2 c hc
        obtain ⟨l1, l2, hsplit, hl1⟩ := hcl.2.2
        refine ⟨hcl.1, ?_, l1, l2 ++ [d], by simp [hsplit], hl1⟩
        intro e he hek
        rcases List.mem_append.mp he with hel | hed
        · exact hcl.2.1 e hel hek
        · obtain rfl : e = d := by simpa using hed
          exact absurd hek hkd

/-- C3: after full ingestion the store holds exactly one record per
distinct identity (a mapping entry exists iff some ingested record
carries that identity), the stored record has the maximum quality among
all ingested records sharing the identity, and on equal quality the
first-seen record is kept (all records strictly before the stored one in
ingestion order have strictly smaller quality); in particular the two
example records with `streamUrl=http://x` and qualities 1 and 3, in
either order, leave only the quality-3 record. -/
theorem add_channels_dedup (cs : List EnhancedChannel) (k : String) :
    (((dictGet (addChannels [] cs) k).isSome ↔ ∃ c ∈ cs, channelId c = k) ∧
     (∀ c, dictGet (addChannels [] cs) k = some c →
       channelId c = k ∧
       (∀ d ∈ cs, channelId d = k → d.quality ≤ c.quality) ∧
       ∃ l1 l2, cs = l1 ++ c :: l2 ∧
         ∀ d ∈ l1, channelId d = k → d.quality < c.quality)) ∧
    addChannels [] [chX1, chX3] = [("http://x", chX3)] ∧
    addChannels [] [chX3, chX1] = [("http://x", chX3)] :=
  ⟨addChannels_invariant k cs, by decide, by decide⟩

/-- Witness for C3 at the example pair (quality 1 then quality 3). -/
theorem add_channels_dedup_witness :
    dictGet (addChannels [] [chX1, chX3]) "http://x" = some chX3 ∧
    channelId chX3 = "http://x" ∧ chX1.quality ≤ chX3.quality :=
  have h := (add_channels_dedup [chX1, chX3] "http://x").1.2 chX3 (by decide)
  ⟨by decide, h.1, h.2.1 chX1 (by decide) (by decide)⟩

/-! ## Except-monad reduction helpers -/

theorem except_bind_ok {ε α β : Type} (a : α) (f : α → Except ε β) :
    (Except.ok a >>= f) = f a := rfl

theorem except_bind_err {ε α β : Type} (e : ε) (f : α → Except ε β) :
    ((Except.error e : Except ε α) >>= f) = Except.error e := rfl

/-! ## Claim C6: exact tvg-id tier -/

/-- C6: a channel whose `tvg-id` key holds a non-empty string that is
verbatim a key of the index resolves to that index entry, whatever the
fuzzy flag and whatever the other entries contain (`tvg-id` is first in
the configured priority list). -/
theorem match_exact_tvg_id (fuzzy : Bool) (c : Channel) (epg : EpgIndex) (s : String)
    (e : ScheduleEntry) (hs : channelGet c "tvg-id" = some (PyVal.str s)) (hne : s ≠ "")
    (hkey : dictGet epg (some s) = some e) :
    matchChannel fuzzy c epg = .ok (some e) := by
  have hex : exactTier c epg CONFIG_matching_priority = .ok (some e) := by
    simp only [CONFIG_matching_priority, exactTier, hs, pyValLookup, hkey, except_bind_ok]
    rfl
  simp only [matchChannel, hex, except_bind_ok]
  rfl

/-- Witness for C6 at a one-entry index. -/
theorem match_exact_tvg_id_witness :
    channelGet c6chan "tvg-id" = some (PyVal.str "c") ∧
    dictGet c6epg (some "c") = some c6entry ∧
    matchChannel true c6chan c6epg = .ok (some c6entry) :=
  ⟨by decide, by decide,
   match_exact_tvg_id true c6chan c6epg "c" c6entry (by decide) (by decide) (by decide)⟩

/-! ## Claim C5: totality of `match_channel` -/

theorem isStrB_exists {v : PyVal} (h : isStrB v = true) : ∃ s, v = PyVal.str s := by
  cases v with
  | str s => exact ⟨s, rfl⟩
  | none => simp [isStrB] at h
  | strList l => simp [isStrB] at h

theorem similar_str (s t : String) :
    similar (PyVal.str s) (PyVal.str t) =
      .ok (infOfB (pyNormalize s) (pyNormalize t) || infOfB (pyNormalize t) (pyNormalize s) ||
        prefOfB (pyNormalize t) (pyNormalize s) || prefOfB (pyNormalize s) (pyNormalize t)) := rfl

theorem anyTruthySimilar_ok (nm : PyVal) (hnm : isStrB nm = true) :
    ∀ ids : List PyVal, (∀ v ∈ ids, isStrB v = true) →
      ∃ b, anyTruthySimilar ids nm = .ok b := by
  intro ids
  induction ids with
  | nil => exact fun _ => ⟨false, rfl⟩
  | cons idc rest ih =>
    intro h
    obtain ⟨s, rfl⟩ := isStrB_exists (h idc (List.mem_cons_self _ _))
    obtain ⟨t, rfl⟩ := isStrB_exists hnm
    obtain ⟨b, hb⟩ := ih (fun v hv => h v (List.mem_cons_of_mem _ hv))
    simp only [anyTruthySimilar, similar_str, except_bind_ok]
    by_cases hC : ((infOfB (pyNormalize s) (pyNormalize t) ||
        infOfB (pyNormalize t) (pyNormalize s) ||
        prefOfB (pyNormalize t) (pyNormalize s) ||
        prefOfB (pyNormalize s) (pyNormalize t)) && pyTruthy (PyVal.str s)) = true
    · exact ⟨true, by rw [if_pos hC]; rfl⟩
    · exact ⟨b, by rw [if_neg hC]; exact hb⟩

theorem nameLoop_ok (ids : List PyVal) (hids : ∀ v ∈ ids, isStrB v = true) :
    ∀ names : List PyVal, (∀ nm ∈ names, isStrB nm = true) →
      ∃ b, nameLoop ids names = .ok b := by
  intro names
  induction names with
  | nil => exact fun _ => ⟨false, rfl⟩
  | cons nm rest ih =>
    intro h
    obtain ⟨b, hb⟩ := anyTruthySimilar_ok nm (h nm (List.mem_cons_self _ _)) ids hids
    cases b with
    | true => exact ⟨true, by simp only [nameLoop, hb, except_bind_ok]; rfl⟩
    | false =>
      obtain ⟨b', hb'⟩ := ih (fun v hv => h v (List.mem_cons_of_mem _ hv))
      refine ⟨b', ?_⟩
      simp only [nameLoop, hb, except_bind_ok]
      simpa using hb'

theorem fuzzyTier_ok (ids : List PyVal) (hids : ∀ v ∈ ids, isStrB v = true) :
    ∀ epg : EpgIndex, (∀ kv ∈ epg, entryFuzzySafe kv.2 = true) →
      ∃ r, fuzzyTier ids epg = .ok r := by
  intro epg
  induction epg with
  | nil => exact fun _ => ⟨Option.none, rfl⟩
  | cons kv rest ih =>
    intro h
    obtain ⟨k, e⟩ := kv
    have hsafe : entryFuzzySafe e = true := h (k, e) (List.mem_cons_self _ _)
    obtain ⟨names, hnames, hall⟩ :
        ∃ names, e.display_names = some names ∧ ∀ nm ∈ names, isStrB nm = true := by
      cases hd : e.display_names with
      | none => simp [entryFuzzySafe, hd] at hsafe
      | some names =>
        refine ⟨names, rfl, ?_⟩
        simp only [entryFuzzySafe, hd, List.all_eq_true] at hsafe
        exact hsafe
    obtain ⟨b, hb⟩ := nameLoop_ok ids hids names hall
    cases b with
    | true => exact ⟨some e, by simp only [fuzzyTier, hnames, hb, except_bind_ok]; rfl⟩
    | false =>
      obtain ⟨r, hr⟩ := ih (fun v hv => h v (List.mem_cons_of_mem _ hv))
      refine ⟨r, ?_⟩
      simp only [fuzzyTier, hnames, hb, except_bind_ok]
      simpa using hr

theorem exactTier_ok (c : Channel) (epg : EpgIndex) :
    ∀ prio : List String, (∀ t ∈ prio, hashableB (channelGet c t) = true) →
      ∃ r, exactTier c epg prio = .ok r := by
  intro prio
  induction prio with
  | nil => exact fun _ => ⟨Option.none, rfl⟩
  | cons t rest ih =>
    intro h
    have ht : hashableB (channelGet c t) = true := h t (List.mem_cons_self _ _)
    have hrest := ih (fun x hx => h x (List.mem_cons_of_mem _ hx))
    cases hg : channelGet c t with
    | none => simpa [exactTier, hg] using hrest
    | some v =>
      cases v with
      | str s =>
        simp only [exactTier, hg, pyValLookup, except_bind_ok]
        cases dictGet epg (some s) with
        | none => simpa using hrest
        | some e => exact ⟨some e, rfl⟩
      | none =>
        simp only [exactTier, hg, pyValLookup, except_bind_ok]
        cases dictGet epg Option.none with
        | none => simpa using hrest
        | some e => exact ⟨some e, rfl⟩
      | strList l => rw [hg] at ht; simp [hashableB] at ht

/-- C5 (amended): `match_channel` is a total deterministic function of
the channel, the index and the fuzzy flag, provided the values at the
priority keys are hashable and — when the fuzzy tier can run — all
identifier candidates are strings and every index entry carries a
`display_names` list of strings.  Without those provisos the code
raises: KeyError on an entry created on demand by a programme element,
AttributeError on a None (absent-key) identifier, TypeError on a list
alias. -/
theorem match_channel_total (fuzzy : Bool) (c : Channel) (epg : EpgIndex)
    (hex : ∀ t ∈ CONFIG_matching_priority, hashableB (channelGet c t) = true)
    (hfz : fuzzy = false ∨
      ((∀ v ∈ identifiers c, isStrB v = true) ∧
       ∀ kv ∈ epg, entryFuzzySafe kv.2 = true)) :
    ∃ r, matchChannel fuzzy c epg = .ok r := by
  obtain ⟨r, hr⟩ := exactTier_ok c epg CONFIG_matching_priority hex
  cases r with
  | some e => exact ⟨some e, by simp only [matchChannel, hr, except_bind_ok]; rfl⟩
  | none =>
    rcases hfz with rfl | ⟨hids, hsafe⟩
    · exact ⟨Option.none, by simp only [matchChannel, hr, except_bind_ok]; rfl⟩
    · obtain ⟨r2, hr2⟩ := fuzzyTier_ok (identifiers c) hids epg hsafe
      cases fuzzy with
      | false => exact ⟨Option.none, by simp only [matchChannel, hr, except_bind_ok]; rfl⟩
      | true =>
        cases r2 with
        | some e =>
          exact ⟨some e, by simp only [matchChannel, hr, except_bind_ok, if_true, hr2]; rfl⟩
        | none =>
          exact ⟨Option.none, by simp only [matchChannel, hr, except_bind_ok, if_true, hr2]; rfl⟩

/-- C5 (counterexample): with the fuzzy tier enabled, a channel whose
tvg-id misses and an index whose entry was created on demand by a
programme element (so it has no `display_names` key) makes
`match_channel` raise KeyError instead of returning an entry or None. -/
theorem match_channel_raises :
    matchChannel true c5chan c5epg = .error Err.keyError := rfl

/-- Witness for the amended C5 theorem at a channel with all-string
identifiers and a safe index. -/
theorem match_channel_total_witness :
    ∃ r, matchChannel true c5goodChan c6epg = .ok r :=
  match_channel_total true c5goodChan c6epg (by decide) (Or.inr ⟨by decide, by decide⟩)

/-! ## Claim C4: a bad programme timestamp and `update_epg` -/

/-- C4 (amended): a programme whose start or stop timestamp fails to
parse makes `_parse_epg` raise (TypeError for a missing attribute,
ValueError for an unparsable string), so the document yields no index at
all — the provider's other programmes and channels do not enter any
index and there is no programme-level containment; and `update_epg`
neither contains nor merely forwards such a failure, because every call
to `update_epg` raises KeyError('epg') at its very first expression (the
`CONFIG["epg"]` subscript of line 99; the EPG block sits under
`CONFIG["sources"]`), aborting the aggregation before any provider
document is parsed. -/
theorem epg_parse_failure_aborts (doc : EpgDoc) (err : Err)
    (hparse : parseEpg doc = .error err)
    (now : Int) (provs : List Provider) (st : EpgState) :
    (∀ idx, parseEpg doc ≠ .ok idx) ∧
    updateEpg now provs st = .error Err.keyError := by
  constructor
  · intro idx hidx
    rw [hparse] at hidx
    exact Except.noConfusion hidx
  · rfl

/-- C4 (counterexample): in `d4doc` the channel and the first programme
are well-formed and only the second programme's start is unparsable, yet
`_parse_epg` raises ValueError — nothing of the provider enters an
index — and `update_epg` raises KeyError('epg') on every call, so the
failure is not confined to the single programme record. -/
theorem update_epg_aborts_on_bad_timestamp :
    parseEpg d4doc = .error Err.valueError ∧
    updateEpg 100 [⟨Option.none, some d4doc⟩] ⟨[], 0⟩ = .error Err.keyError :=
  ⟨rfl, rfl⟩

/-- Witness for the amended C4 theorem at `d4doc`. -/
theorem epg_parse_failure_aborts_witness :
    (∀ idx, parseEpg d4doc ≠ .ok idx) ∧
    updateEpg 100 [⟨Option.none, some d4doc⟩] ⟨[], 0⟩ = .error Err.keyError :=
  epg_parse_failure_aborts d4doc Err.valueError rfl 100 [⟨Option.none, some d4doc⟩] ⟨[], 0⟩

/-! ## Claim C9: programme lists are kept in document order -/

theorem dictGet_append [DecidableEq κ] :
    ∀ (d1 d2 : List (κ × ν)) (k : κ),
      dictGet (d1 ++ d2) k =
        match dictGet d1 k with
        | some v => some v
        | Option.none => dictGet d2 k := by
  intro d1
  induction d1 with
  | nil => intro d2 k; rfl
  | cons kv rest ih =>
    intro d2 k
    obtain ⟨k0, v0⟩ := kv
    by_cases h : k0 = k
    · subst h
      simp [dictGet]
    · simp only [List.cons_append, dictGet, if_neg h]
      exact ih d2 k

theorem appendProg_get_other {epg : EpgIndex} {ch k : Option String} {pr : Programme}
    (h : ch ≠ k) : dictGet (appendProg epg ch pr) k = dictGet epg k := by
  unfold appendProg
  cases hget : dictGet epg ch with
  | none =>
    rw [dictGet_append]
    cases hk : dictGet epg k with
    | none => simp [dictGet, h]
    | some e => rfl
  | some e => exact dictGet_insert_ne _ _ _ _ h

theorem progsOpt_appendProg_self (epg : EpgIndex) (ch : Option String) (pr : Programme) :
    progsOpt (appendProg epg ch pr) ch = some ((progsOpt epg ch).getD [] ++ [pr]) := by
  unfold appendProg progsOpt
  cases hget : dictGet epg ch with
  | none =>
    rw [dictGet_append, hget]
    simp [dictGet]
  | some e =>
    rw [dictGet_insert_self]
    simp

theorem chanLoop_progsOpt :
    ∀ (chans : List XmlChannel) (epg : EpgIndex),
      (∀ k, progsOpt epg k = Option.none) →
      ∀ k, progsOpt (chanLoop epg chans) k = Option.none := by
  intro chans
  induction chans with
  | nil => intro epg h k; exact h k
  | cons ch rest ih =>
    intro epg h k
    apply ih
    intro k'
    unfold progsOpt
    by_cases hk : ch.id = k'
    · subst hk
      rw [dictGet_insert_self]
      rfl
    · rw [dictGet_insert_ne _ _ _ _ hk]
      exact h k'

theorem mapM_progOfXml_ok_nil {l : List XmlProgramme}
    (h : (l.mapM progOfXml : Except Err (List Programme)) = .ok []) : l = [] := by
  cases l with
  | nil => rfl
  | cons a t =>
    rw [List.mapM_cons] at h
    cases ha : progOfXml a with
    | error e => rw [ha] at h; exact absurd h (by simp [except_bind_err])
    | ok pr =>
      rw [ha, except_bind_ok] at h
      cases ht : (t.mapM progOfXml : Except Err (List Programme)) with
      | error e => rw [ht] at h; exact absurd h (by simp [except_bind_err])
      | ok rs =>
        rw [ht, except_bind_ok] at h
        injection h with h'
        exact absurd h' (by simp)

theorem progLoop_progsOpt :
    ∀ (ps : List XmlProgramme) (epg idx : EpgIndex),
      progLoop epg ps = .ok idx →
      ∀ k, ∃ ps', ((ps.filter (fun q => q.channel == k)).mapM progOfXml :
          Except Err (List Programme)) = .ok ps' ∧
        progsOpt idx k = (if ps'.isEmpty then progsOpt epg k
          else some ((progsOpt epg k).getD [] ++ ps')) := by
  intro ps
  induction ps with
  | nil =>
    intro epg idx h k
    simp only [progLoop, Except.ok.injEq] at h
    subst h
    exact ⟨[], rfl, by simp⟩
  | cons p rest ih =>
    intro epg idx h k
    simp only [progLoop] at h
    cases hpr : progOfXml p with
    | error e => rw [hpr] at h; exact absurd h (by simp [except_bind_err])
    | ok pr =>
      rw [hpr, except_bind_ok] at h
      obtain ⟨ps'', hmap, hopt⟩ := ih (appendProg epg p.channel pr) idx h k
      by_cases hch : p.channel = k
      · have hchb : (p.channel == k) = true := by simp [hch]
        refine ⟨pr :: ps'', ?_, ?_⟩
        · have hfil : List.filter (fun q => q.channel == k) (p :: rest) =
              p :: List.filter (fun q => q.channel == k) rest := by
            simp [List.filter_cons, hchb]
          rw [hfil, List.mapM_cons, hpr, except_bind_ok, hmap, except_bind_ok]
          rfl
        · subst hch
          rw [progsOpt_appendProg_self] at hopt
          rw [hopt]
          cases hps : ps''.isEmpty with
          | true =>
            have : ps'' = [] := by simpa [List.isEmpty_iff] using hps
            subst this
            simp
          | false =>
            have : ¬ (pr :: ps'').isEmpty = true := by simp
            simp only [hps, if_false, List.isEmpty_cons, if_neg this]
            rw [Option.getD_some]
            simp
      · have hchb : (p.channel == k) = false := by simp [hch]
        have hother : progsOpt (appendProg epg p.channel pr) k = progsOpt epg k := by
          unfold progsOpt
          rw [appendProg_get_other hch]
        rw [hother] at hopt
        refine ⟨ps'', ?_, hopt⟩
        have hfil : List.filter (fun q => q.channel == k) (p :: rest) =
            List.filter (fun q => q.channel == k) rest := by
          simp [List.filter_cons, hchb]
        rw [hfil]
        exact hmap

/-- C9 (amended): within each entry of a successfully parsed provider
document the programme list is exactly the document's programmes for
that channel id, in document order, with overlapping programmes all
preserved (no deduplication); the list is ascending by start time only
when the document lists them so. -/
theorem epg_programmes_document_order (doc : EpgDoc) (idx : EpgIndex)
    (h : parseEpg doc = .ok idx) :
    ∀ k e, dictGet idx k = some e →
      (∀ ps, e.programmes = some ps → progsFor doc k = .ok ps ∧ ps ≠ []) ∧
      (e.programmes = Option.none →
        doc.programmes.filter (fun q => q.channel == k) = []) := by
  intro k e he
  have hchan : ∀ k', progsOpt (chanLoop [] doc.channels) k' = Option.none :=
    chanLoop_progsOpt doc.channels [] (fun _ => rfl)
  obtain ⟨ps', hmap, hopt⟩ := progLoop_progsOpt doc.programmes _ idx h k
  rw [hchan k] at hopt
  constructor
  · intro ps hps
    have hcur : progsOpt idx k = some ps := by
      unfold progsOpt
      rw [he]
      simp only [Option.some_bind]
      exact hps
    rw [hcur] at hopt
    cases hemp : ps'.isEmpty with
    | true => rw [hemp, if_pos rfl] at hopt; exact absurd hopt (by simp)
    | false =>
      rw [hemp] at hopt
      simp only [Bool.false_eq_true, if_false, Option.getD_none, List.nil_append,
        Option.some.injEq] at hopt
      subst hopt
      refine ⟨hmap, ?_⟩
      intro hnil
      subst hnil
      simp at hemp
  · intro hnone
    have hcur : progsOpt idx k = Option.none := by
      unfold progsOpt
      rw [he]
      simp only [Option.some_bind]
      exact hnone
    rw [hcur] at hopt
    cases hemp : ps'.isEmpty with
    | true =>
      have : ps' = [] := by simpa [List.isEmpty_iff] using hemp
      subst this
      exact mapM_progOfXml_ok_nil hmap
    | false => rw [hemp] at hopt; exact absurd hopt (by simp)

/-- C9 (counterexample): `d9doc` lists two overlapping programmes for
channel `c` with descending start times; the resulting entry stores them
in that (non-ascending) order. -/
theorem epg_programmes_not_ascending :
    parseEpg d9doc = .ok idx9 ∧ dictGet idx9 (some "c") = some e9 ∧
    e9.programmes = some [p9B, p9A] ∧ startAscendingB [p9B, p9A] = false :=
  ⟨rfl, rfl, rfl, rfl⟩

/-- Witness for the amended C9 theorem at `d9doc`. -/
theorem epg_programmes_document_order_witness :
    progsFor d9doc (some "c") = .ok [p9B, p9A] ∧ ([p9B, p9A] : List Programme) ≠ [] :=
  (epg_programmes_document_order d9doc idx9 rfl (some "c") e9 rfl).1 [p9B, p9A] rfl

/-! ## Claims C7 and C8: `update_epg` never reaches its gate or loop -/

/-- C7 (code bug): every call to `update_epg` raises KeyError('epg')
while evaluating the gate expression `CONFIG["epg"]["cache_ttl"]` of
line 99 — the CONFIG literal nests the EPG block under "sources" — so no
call ever completes a refresh, no call is a gated no-op, and no provider
is ever fetched; the configured `cache_ttl` of 86400 seconds is never
read and the ttl behaviour the claim describes is unreachable. -/
theorem update_epg_gate_keyerror (now : Int) (provs : List Provider) (st : EpgState) :
    updateEpg now provs st = .error Err.keyError := rfl

/-- C8 (code bug): the merge/replace provider loop of lines 103-118 is
unreachable — even with two providers whose documents would download and
parse successfully, `update_epg` raises KeyError('epg') at line 99
before reading the strategy or touching any provider, and the manager
state is never updated. -/
theorem update_epg_merge_unreachable :
    parseEpg d8a = .ok pe8a ∧ parseEpg d8b = .ok pe8b ∧
    updateEpg 100 [⟨Option.none, some d8a⟩, ⟨Option.none, some d8b⟩] ⟨[], 0⟩ =
      .error Err.keyError :=
  ⟨rfl, rfl, rfl⟩
